import Mathlib

/-!
# Verification of the vite-plugin-deploy-s3 sync engine

Shallow embedding of `src/main.ts`: the incremental sync pass (`writeBundle`),
the blob-store client wrapper (`Client.get` / `getJson` / `del` / `tag` /
`normalizeKey`), and the upload-metadata helper (`getFileMeta`).

External collaborators (SHA-256 hashing from `node:crypto`, gzip from
`node:zlib`, MIME lookup from `mime-types`, `JSON.parse`, and the S3 service
itself) are modelled as parameters or at their documented service boundary;
everything else is translated directly from the source.
-/

set_option maxRecDepth 4000

namespace DeployS3

/-- Raw file contents: a list of byte values (`Uint8Array` in the source). -/
abbrev Bytes := List Nat

/-- One manifest record (`interface FileFingerprint` in the source):
the content hash plus the transient in-memory `__processed` marker
(`none` models a JS object on which the property is absent). -/
structure FileFingerprint where
  hash : String
  procFlag : Option Bool := none
deriving DecidableEq, Repr

/-- The manifest (`interface FileFingerprintMap`): a JS object mapping
logical names to fingerprints.  Modelled as an association list with
insertion-ordered keys, matching JS object key enumeration order. -/
abbrev FingerprintMap := List (String × FileFingerprint)

/-- `m[k]` on a JS object: the first (and, for reachable states, only)
binding of `k`. -/
def mapGet : FingerprintMap → String → Option FileFingerprint
  | [], _ => none
  | p :: rest, k => if p.1 = k then some p.2 else mapGet rest k

/-- `m[k] = v` on a JS object: replace the binding in place if the key is
present (keeping its position, as JS does), otherwise append it. -/
def mapSet : FingerprintMap → String → FileFingerprint → FingerprintMap
  | [], k, v => [(k, v)]
  | p :: rest, k, v => if p.1 = k then (k, v) :: rest else p :: mapSet rest k v

/-- The keys of a manifest in enumeration order. -/
def keys (m : FingerprintMap) : List String := m.map Prod.fst

/-- Access-control settings used by the plugin (`ObjectCannedACL`). -/
inductive Acl where
  | publicRead
  | privateAcl
deriving DecidableEq, Repr

/-- Metadata passed to `Client.put` (`interface PutObjectOptions`). -/
structure PutObjectOptions where
  contentType : Option String := none
  contentEncoding : Option String := none
  cacheControl : Option String := none
  acl : Option Acl := none
deriving DecidableEq, Repr

/-- The body handed to `Client.put`: `Uint8Array | string` in the source. -/
inductive PutBody where
  | bytes (b : Bytes)
  | str (s : String)
deriving DecidableEq, Repr

/-- One remote mutation issued through the client during a pass. -/
inductive Action where
  | put (key : String) (body : PutBody) (meta : PutObjectOptions)
  | del (key : String)
  | tag (key tagKey tagValue : String)
deriving DecidableEq, Repr

/-- The key an action addresses. -/
def targetKey : Action → String
  | .put k _ _ => k
  | .del k => k
  | .tag k _ _ => k

/-- Plugin options after the eager validation at the top of `deploy`:
`deleteUseTag` already normalized to a key/value pair, `gzip` reduced to
whether it is enabled (the zlib parameter object only tunes the external
compressor). -/
structure DeployOptions where
  cleanHtmlSuffix : Bool := false
  deleteUseTag : Option (String × String) := none
  gzipEnabled : Bool := false

/-- The external pure collaborators: `createHash('sha256')...digest('hex')`,
`gzipAsync`, and `mime.lookup` (`none` models its `false` result). -/
structure Env where
  hashFn : Bytes → String
  gzipFn : Bytes → Bytes
  mimeLookup : String → Option String

/-- A file found by `getFiles` under the output directory: its
forward-slash relative path (`normalizePath(relative(_outDir, file))`)
and its bytes.  A path ends with `.html` exactly when the absolute path
does, so the source's `file.endsWith('.html')` checks are taken on it. -/
structure LocalFile where
  path : String
  content : Bytes
deriving DecidableEq, Repr

/-- JS `s.endsWith(post)`, decided on character lists. -/
def strEndsWith (s post : String) : Bool := post.toList.isSuffixOf s.toList

/-- JS `s.startsWith(pre)`, decided on character lists. -/
def strStartsWith (s pre : String) : Bool := pre.toList.isPrefixOf s.toList

/-- JS `name.slice(0, -5)`: drop the trailing five characters. -/
def jsSlice5 (s : String) : String :=
  String.mk (s.toList.take (s.toList.length - 5))

/-- Node's `path.extname`: the suffix of the last path component from its
last dot; a dot in first position (as in dotfiles) does not count. -/
def extname (p : String) : String :=
  let base := (p.toList.reverse.takeWhile (fun c => c ≠ '/')).reverse
  match base with
  | [] => ""
  | _ :: rest =>
    let tl := rest.reverse.takeWhile (fun c => c ≠ '.')
    if tl.length = rest.length then ""
    else String.mk ('.' :: tl.reverse)

/-- The logical name of a file (`writeBundle`, lines 129-133): the relative
path, with a trailing `.html` stripped when `cleanHtmlSuffix` is set. -/
def logicalName (opts : DeployOptions) (p : String) : String :=
  if opts.cleanHtmlSuffix && strEndsWith p ".html" then jsSlice5 p else p

/-- `getFileMeta` (lines 278-291): MIME type by extension with the
`application/octet-stream` fallback, the immutable cache-control directive
for non-HTML files, and public-read access. -/
def getFileMeta (env : Env) (p : String) : PutObjectOptions :=
  { contentType := some ((env.mimeLookup (extname p)).getD "application/octet-stream")
    cacheControl :=
      if !(strEndsWith p ".html") then some "public, max-age=31536000, immutable" else none
    acl := some .publicRead }

/-- The upload performed for a changed file (lines 145-154): gzip the body
and set `content-encoding` when the file is not HTML and gzip is enabled. -/
def uploadAction (opts : DeployOptions) (env : Env) (f : LocalFile) : Action :=
  let meta := getFileMeta env f.path
  if !(strEndsWith f.path ".html") && opts.gzipEnabled then
    .put (logicalName opts f.path) (.bytes (env.gzipFn f.content))
      { meta with contentEncoding := some "gzip" }
  else
    .put (logicalName opts f.path) (.bytes f.content) meta

/-- State carried through the per-file loop of `writeBundle`: the loaded
(old) manifest being marked, the new manifest being built, and the trace
of client calls issued so far. -/
structure PassState where
  fps : FingerprintMap
  nfps : FingerprintMap
  acts : List Action

/-- `fingerprints[name].__processed = true` (line 136), a no-op when the
loaded manifest has no entry for the name. -/
def markOne (m : FingerprintMap) (k : String) : FingerprintMap :=
  match mapGet m k with
  | some fp => mapSet m k { fp with procFlag := some true }
  | none => m

/-- One iteration of the per-file loop (lines 128-157). -/
def processFile (opts : DeployOptions) (env : Env) (s : PassState) (f : LocalFile) :
    PassState :=
  let name := logicalName opts f.path
  let fps := markOne s.fps name
  let h := env.hashFn f.content
  let nfps := mapSet s.nfps name ⟨h, none⟩
  if (mapGet fps name).map (fun fp => fp.hash) = some h then
    { fps := fps, nfps := nfps, acts := s.acts }
  else
    { fps := fps, nfps := nfps, acts := s.acts ++ [uploadAction opts env f] }

/-- The mutation issued for a stale manifest entry (lines 161-165): tag it
when a delete-tag is configured, delete it otherwise. -/
def staleAction (opts : DeployOptions) (key : String) : Action :=
  match opts.deleteUseTag with
  | some (k, v) => .tag key k v
  | none => .del key

/-- The stale-entry loop (lines 159-169): one delete/tag per manifest entry
whose `__processed` marker is not set. -/
def staleActions (opts : DeployOptions) (m : FingerprintMap) : List Action :=
  m.filterMap (fun p =>
    if p.2.procFlag = some true then none else some (staleAction opts p.1))

/-- The well-known manifest key. -/
def manifestKey : String := "fingerprints.json"

/-- A JSON string literal (names and hex hashes need no escaping). -/
def jsonQuote (s : String) : String := "\"" ++ s ++ "\""

/-- `JSON.stringify` of one fingerprint record, including the `__processed`
property whenever it is present on the object. -/
def stringifyFingerprint (fp : FileFingerprint) : String :=
  "\x7b" ++ jsonQuote "hash" ++ ":" ++ jsonQuote fp.hash ++
    (match fp.procFlag with
     | some b => "," ++ jsonQuote "__processed" ++ ":" ++ (if b then "true" else "false")
     | none => "") ++ "\x7d"

/-- `JSON.stringify` of a manifest, keys in enumeration order. -/
def stringifyMap (m : FingerprintMap) : String :=
  "\x7b" ++
    String.intercalate ","
      (m.map (fun p => jsonQuote p.1 ++ ":" ++ stringifyFingerprint p.2)) ++
    "\x7d"

/-- Metadata of the final manifest write (lines 171-174). -/
def manifestMeta : PutObjectOptions :=
  { contentType := some "application/json", acl := some .privateAcl }

/-- The final manifest write (lines 171-174). -/
def manifestWrite (nf : FingerprintMap) : Action :=
  .put manifestKey (.str (stringifyMap nf)) manifestMeta

/-- The per-file loop over the enumerated files. -/
def runFiles (opts : DeployOptions) (env : Env) (files : List LocalFile)
    (loaded : FingerprintMap) : PassState :=
  files.foldl (processFile opts env) ⟨loaded, [], []⟩

/-- One full sync pass (`writeBundle`, lines 119-177), given the enumerated
local files and the loaded manifest (`getJson ?? empty`): returns the new
manifest and the full trace of client mutations, in order. -/
def writeBundle (opts : DeployOptions) (env : Env) (files : List LocalFile)
    (loaded : FingerprintMap) : FingerprintMap × List Action :=
  let s := runFiles opts env files loaded
  (s.nfps, s.acts ++ staleActions opts s.fps ++ [manifestWrite s.nfps])

/-! ## Blob-store client (`class Client`) -/

/-- An error thrown by the underlying SDK, identified by its `name`. -/
structure S3Error where
  name : String
deriving DecidableEq, Repr

/-- Outcome of the raw `getObject` call: the object's bytes, or an error. -/
inductive GetOutcome where
  | ok (b : Bytes)
  | err (e : S3Error)
deriving DecidableEq, Repr

/-- `Client.get` (lines 212-227): map `NoSuchKey` and `AccessDenied` to an
absent result, rethrow anything else. -/
def clientGet (out : GetOutcome) : Except S3Error (Option Bytes) :=
  match out with
  | .ok b => .ok (some b)
  | .err e =>
    if e.name = "NoSuchKey" || e.name = "AccessDenied" then .ok none else .error e

/-- Failures of `Client.getJson`: a propagated store error, or the
exception thrown by `JSON.parse` on malformed bytes. -/
inductive FetchError where
  | s3 (e : S3Error)
  | parseError
deriving DecidableEq, Repr

/-- `Client.getJson` (lines 203-209): propagate absence unchanged, parse
otherwise (`parse` models `JSON.parse`, `none` being a thrown
`SyntaxError`). -/
def clientGetJson {T : Type} (parse : Bytes → Option T) (out : GetOutcome) :
    Except FetchError (Option T) :=
  match clientGet out with
  | .error e => .error (.s3 e)
  | .ok none => .ok none
  | .ok (some b) =>
    match parse b with
    | some t => .ok (some t)
    | none => .error .parseError

/-- The manifest load in `writeBundle` (line 125):
`(await client.getJson('fingerprints.json')) ?? empty-object`. -/
def loadFingerprints (parse : Bytes → Option FingerprintMap) (out : GetOutcome) :
    Except FetchError FingerprintMap :=
  (clientGetJson parse out).map (fun o => o.getD [])

/-- The remote objects currently in the bucket, by key. -/
abbrev Store := List (String × Bytes)

/-- Modelled from the spec: the S3 service's `DeleteObject` at its boundary
(spec section 4.1) — removal succeeds whether or not the object exists. -/
def s3DeleteObject (store : Store) (key : String) : Except S3Error Store :=
  .ok (store.filter (fun p => p.1 ≠ key))

/-- Modelled from the spec: the S3 service's `PutObjectTagging` at its
boundary — it fails with `NoSuchKey` when the object is absent. -/
def s3PutObjectTagging (store : Store) (key : String) : Except S3Error Store :=
  if store.any (fun p => p.1 == key) then .ok store else .error ⟨"NoSuchKey"⟩

/-- `Client.del` (lines 242-247): a plain `deleteObject`, no catch. -/
def clientDel (store : Store) (key : String) : Except S3Error Store :=
  s3DeleteObject store key

/-- `Client.tag` (lines 249-269): `putObjectTagging`, swallowing
`NoSuchKey` and rethrowing anything else. -/
def clientTag (store : Store) (key : String) : Except S3Error Store :=
  match s3PutObjectTagging store key with
  | .ok s => .ok s
  | .error e => if e.name = "NoSuchKey" then .ok store else .error e

/-- Executing one traced action against a bucket state. -/
def execAction (store : Store) (a : Action) : Except S3Error Store :=
  match a with
  | .put k b _ =>
    .ok (match b with
         | .bytes bs => (store.filter (fun p => p.1 ≠ k)) ++ [(k, bs)]
         | .str _ => (store.filter (fun p => p.1 ≠ k)) ++ [(k, [])])
  | .del k => clientDel store k
  | .tag k _ _ => clientTag store k

/-- `Client.normalizeKey` (lines 271-273): prepend the configured bucket
path option, inserting a slash when the key lacks a leading one. -/
def normalizeKey (pfx key : String) : String :=
  pfx ++ (if strStartsWith key "/" then key else "/" ++ key)

/-- Trailing slashes removed, used to state the key-shape claim. -/
def dropTrailingSlashes (s : String) : String :=
  String.mk ((s.toList.reverse.dropWhile (fun c => c = '/')).reverse)

/-- Leading slashes removed, used to state the key-shape claim. -/
def dropLeadingSlashes (s : String) : String :=
  String.mk (s.toList.dropWhile (fun c => c = '/'))

/-- The spec's key-shape property, stated from its words: the result is the
configured path option and the key joined by exactly one separating slash —
never zero, never two. -/
def joinedByOneSlash (pfx key r : String) : Prop :=
  r = dropTrailingSlashes pfx ++ "/" ++ dropLeadingSlashes key

/-! ## Characterization helpers (spec-side views of the pass) -/

/-- Setting the transient processed marker on a record. -/
def markFp (fp : FileFingerprint) : FileFingerprint := ⟨fp.hash, some true⟩

/-- The old manifest after the per-file loop: every entry whose name is some
file's logical name carries the processed marker. -/
def markAll (opts : DeployOptions) : List LocalFile → FingerprintMap → FingerprintMap
  | [], m => m
  | f :: fs, m => markAll opts fs (markOne m (logicalName opts f.path))

/-- The new manifest built by the per-file loop: one hash-only record per
logical name, last write winning. -/
def buildNew (opts : DeployOptions) (env : Env) :
    List LocalFile → FingerprintMap → FingerprintMap
  | [], m => m
  | f :: fs, m =>
    buildNew opts env fs (mapSet m (logicalName opts f.path) ⟨env.hashFn f.content, none⟩)

/-- The uploads of a pass: one per file whose current hash is absent from
or differs from the loaded manifest. -/
def passUploads (opts : DeployOptions) (env : Env) (loaded : FingerprintMap)
    (files : List LocalFile) : List Action :=
  files.filterMap (fun f =>
    if (mapGet loaded (logicalName opts f.path)).map (fun fp => fp.hash) =
        some (env.hashFn f.content)
    then none
    else some (uploadAction opts env f))

/-! ## Concrete instances used by witnesses and counterexamples -/

/-- A concrete environment: a stand-in content hash separating the bytes
`[0]` and `[1]`, identity compression, and a MIME table knowing only
`.html`. -/
def exEnvHead : Env :=
  ⟨fun b => if b.headD 0 = 0 then "h0" else "h1", id,
   fun e => if e = ".html" then some "text/html" else none⟩

/-- Options with `cleanHtmlSuffix` enabled. -/
def exOptsClean : DeployOptions := { cleanHtmlSuffix := true }

/-- Options with gzip compression enabled. -/
def exOptsGzip : DeployOptions := { gzipEnabled := true }

/-- Two distinct files whose logical names collide once `.html` is
stripped. -/
def exFilesCollide : List LocalFile := [⟨"a", [0]⟩, ⟨"a.html", [1]⟩]

/-- A collision-free pair of local files. -/
def exFilesPair : List LocalFile := [⟨"index.html", [0]⟩, ⟨"app.js", [1]⟩]

/-- A loaded manifest whose single (stale) entry is named like the
manifest object itself. -/
def exLoadedManifest : FingerprintMap := [("fingerprints.json", ⟨"x", none⟩)]

/-- Whether an action is a put (a write) addressed to the manifest key. -/
def isManifestPut (a : Action) : Bool :=
  match a with
  | .put k _ _ => k == manifestKey
  | _ => false

/-! ## Association-list lemmas -/

theorem mapGet_mapSet_self (m : FingerprintMap) (k : String) (v : FileFingerprint) :
    mapGet (mapSet m k v) k = some v := by
  induction m with
  | nil => simp [mapSet, mapGet]
  | cons p rest ih =>
    by_cases h : p.1 = k
    · simp [mapSet, h, mapGet]
    · simp [mapSet, h, mapGet, ih]

theorem mapGet_mapSet_ne (m : FingerprintMap) (k : String) (v : FileFingerprint)
    (j : String) (h : j ≠ k) : mapGet (mapSet m k v) j = mapGet m j := by
  induction m with
  | nil => simp [mapSet, mapGet, Ne.symm h]
  | cons p rest ih =>
    by_cases hp : p.1 = k
    · simp [mapSet, hp, mapGet, Ne.symm h]
    · simp only [mapSet, hp, if_false, mapGet]
      split
      · rfl
      · exact ih

theorem mapGet_isSome_iff (m : FingerprintMap) (k : String) :
    (mapGet m k).isSome ↔ k ∈ keys m := by
  induction m with
  | nil => simp [mapGet, keys]
  | cons p rest ih =>
    by_cases h : p.1 = k
    · simp [mapGet, keys, h]
    · simp [mapGet, keys, h, ih, Ne.symm h]

theorem keys_mapSet (m : FingerprintMap) (k : String) (v : FileFingerprint) :
    keys (mapSet m k v) = if k ∈ keys m then keys m else keys m ++ [k] := by
  induction m with
  | nil => simp [mapSet, keys]
  | cons p rest ih =>
    by_cases h : p.1 = k
    · subst h
      simp [mapSet, keys]
    · simp only [mapSet, h, if_false, keys, List.map_cons]
      simp only [keys] at ih
      rw [ih]
      by_cases hk : k ∈ List.map Prod.fst rest
      · simp [hk, List.mem_cons, Ne.symm h]
      · simp [hk, List.mem_cons, Ne.symm h]

theorem nodup_keys_mapSet (m : FingerprintMap) (k : String) (v : FileFingerprint)
    (h : (keys m).Nodup) : (keys (mapSet m k v)).Nodup := by
  rw [keys_mapSet]
  split
  · exact h
  · next hk => simp [List.nodup_append, h, hk]

theorem mem_iff_mapGet (m : FingerprintMap) (k : String) (fp : FileFingerprint)
    (hn : (keys m).Nodup) : (k, fp) ∈ m ↔ mapGet m k = some fp := by
  induction m with
  | nil => simp [mapGet]
  | cons p rest ih =>
    have hn' : p.1 ∉ keys rest ∧ (keys rest).Nodup := by
      rw [keys, List.map_cons, List.nodup_cons] at hn
      exact hn
    by_cases h : p.1 = k
    · simp only [mapGet, h, if_true, List.mem_cons]
      constructor
      · rintro (rfl | hmem)
        · rfl
        · exact absurd (by rw [h]; exact List.mem_map_of_mem Prod.fst hmem) hn'.1
      · rintro heq
        left
        obtain ⟨p1, p2⟩ := p
        simp only [Option.some.injEq] at heq
        simp_all
    · simp only [mapGet, h, if_false, List.mem_cons]
      rw [← ih hn'.2]
      constructor
      · rintro (rfl | hmem)
        · exact absurd rfl h
        · exact hmem
      · exact fun hmem => Or.inr hmem

theorem mem_mapSet (m : FingerprintMap) (k : String) (v : FileFingerprint)
    (p : String × FileFingerprint) (hp : p ∈ mapSet m k v) : p = (k, v) ∨ p ∈ m := by
  induction m with
  | nil =>
    simp [mapSet] at hp
    exact Or.inl hp
  | cons q rest ih =>
    by_cases h : q.1 = k
    · simp only [mapSet, h, if_true, List.mem_cons] at hp
      rcases hp with rfl | hp
      · exact Or.inl rfl
      · exact Or.inr (List.mem_cons_of_mem _ hp)
    · simp only [mapSet, h, if_false, List.mem_cons] at hp
      rcases hp with rfl | hp
      · exact Or.inr (List.mem_cons_self _ _)
      · rcases ih hp with h1 | h1
        · exact Or.inl h1
        · exact Or.inr (List.mem_cons_of_mem _ h1)

/-! ## Marking and manifest-building lemmas -/

theorem markFp_markFp (o : Option FileFingerprint) :
    (o.map markFp).map markFp = o.map markFp := by
  cases o <;> rfl

theorem markFp_comp : markFp ∘ markFp = markFp := by
  funext fp
  rfl

theorem mapGet_markOne (m : FingerprintMap) (n k : String) :
    mapGet (markOne m n) k =
      if k = n then (mapGet m k).map markFp else mapGet m k := by
  unfold markOne
  cases hm : mapGet m n with
  | none =>
    by_cases h : k = n <;> simp [h, hm]
  | some fp =>
    by_cases h : k = n
    · subst h
      rw [mapGet_mapSet_self, hm]
      simp [markFp]
    · rw [mapGet_mapSet_ne _ _ _ _ h, if_neg h]

theorem mapGet_markOne_hash (m : FingerprintMap) (n k : String) :
    (mapGet (markOne m n) k).map (fun fp => fp.hash) =
      (mapGet m k).map (fun fp => fp.hash) := by
  rw [mapGet_markOne]
  split
  · cases mapGet m k <;> rfl
  · rfl

theorem keys_markOne (m : FingerprintMap) (n : String) :
    keys (markOne m n) = keys m := by
  unfold markOne
  cases hm : mapGet m n with
  | none => rfl
  | some fp =>
    rw [keys_mapSet]
    have : n ∈ keys m := (mapGet_isSome_iff m n).mp (by simp [hm])
    simp [this]

theorem keys_markAll (opts : DeployOptions) (files : List LocalFile)
    (m : FingerprintMap) : keys (markAll opts files m) = keys m := by
  induction files generalizing m with
  | nil => rfl
  | cons f fs ih => rw [markAll, ih, keys_markOne]

theorem mapGet_markAll (opts : DeployOptions) (files : List LocalFile)
    (m : FingerprintMap) (k : String) :
    mapGet (markAll opts files m) k =
      if files.any (fun f => logicalName opts f.path == k)
      then (mapGet m k).map markFp
      else mapGet m k := by
  induction files generalizing m with
  | nil => simp [markAll]
  | cons f fs ih =>
    rw [markAll, ih, mapGet_markOne]
    by_cases h : logicalName opts f.path = k
    · by_cases hfs : fs.any (fun g => logicalName opts g.path == k)
      · simp [h, hfs, markFp_comp, eq_comm]
      · simp [h, hfs, eq_comm]
    · have h' : k ≠ logicalName opts f.path := fun he => h he.symm
      by_cases hfs : fs.any (fun g => logicalName opts g.path == k)
      · simp [h, h', hfs]
      · simp [h, h', hfs]

theorem mem_buildNew (opts : DeployOptions) (env : Env) (files : List LocalFile)
    (m : FingerprintMap) (p : String × FileFingerprint)
    (hp : p ∈ buildNew opts env files m) :
    p ∈ m ∨ ∃ f ∈ files, p = (logicalName opts f.path, ⟨env.hashFn f.content, none⟩) := by
  induction files generalizing m with
  | nil => exact Or.inl hp
  | cons f fs ih =>
    rw [buildNew] at hp
    rcases ih _ hp with h | ⟨g, hg, rfl⟩
    · rcases mem_mapSet _ _ _ _ h with rfl | h1
      · exact Or.inr ⟨f, List.mem_cons_self _ _, rfl⟩
      · exact Or.inl h1
    · exact Or.inr ⟨g, List.mem_cons_of_mem _ hg, rfl⟩

theorem mapGet_buildNew_ne (opts : DeployOptions) (env : Env) (files : List LocalFile)
    (m : FingerprintMap) (k : String)
    (h : ∀ f ∈ files, logicalName opts f.path ≠ k) :
    mapGet (buildNew opts env files m) k = mapGet m k := by
  induction files generalizing m with
  | nil => rfl
  | cons f fs ih =>
    rw [buildNew, ih _ (fun g hg => h g (List.mem_cons_of_mem _ hg)),
        mapGet_mapSet_ne]
    exact fun hk => (h f (List.mem_cons_self _ _)) hk.symm

theorem mapGet_buildNew_isSome (opts : DeployOptions) (env : Env)
    (files : List LocalFile) (m : FingerprintMap) (k : String)
    (h : (mapGet m k).isSome) :
    (mapGet (buildNew opts env files m) k).isSome := by
  induction files generalizing m with
  | nil => exact h
  | cons f fs ih =>
    rw [buildNew]
    apply ih
    by_cases hk : logicalName opts f.path = k
    · subst hk
      rw [mapGet_mapSet_self]
      rfl
    · rw [mapGet_mapSet_ne _ _ _ _ (fun he => hk he.symm)]
      exact h

theorem mapGet_buildNew_name_isSome (opts : DeployOptions) (env : Env)
    (files : List LocalFile) (m : FingerprintMap) (f : LocalFile) (hf : f ∈ files) :
    (mapGet (buildNew opts env files m) (logicalName opts f.path)).isSome := by
  induction files generalizing m with
  | nil => cases hf
  | cons g gs ih =>
    rw [buildNew]
    rcases List.mem_cons.mp hf with rfl | hf'
    · apply mapGet_buildNew_isSome
      rw [mapGet_mapSet_self]
      rfl
    · exact ih _ hf'

theorem nodup_keys_buildNew (opts : DeployOptions) (env : Env)
    (files : List LocalFile) (m : FingerprintMap) (h : (keys m).Nodup) :
    (keys (buildNew opts env files m)).Nodup := by
  induction files generalizing m with
  | nil => exact h
  | cons f fs ih => exact ih _ (nodup_keys_mapSet _ _ _ h)

theorem mem_keys_buildNew (opts : DeployOptions) (env : Env) (files : List LocalFile)
    (m : FingerprintMap) (k : String) (hk : k ∈ keys (buildNew opts env files m)) :
    k ∈ keys m ∨ ∃ f ∈ files, logicalName opts f.path = k := by
  rcases List.mem_map.mp hk with ⟨p, hp, rfl⟩
  rcases mem_buildNew _ _ _ _ _ hp with h | ⟨f, hf, rfl⟩
  · exact Or.inl (List.mem_map_of_mem _ h)
  · exact Or.inr ⟨f, hf, rfl⟩

theorem mapGet_buildNew_nodup (opts : DeployOptions) (env : Env)
    (files : List LocalFile) (m : FingerprintMap)
    (hn : (files.map (fun f => logicalName opts f.path)).Nodup)
    (f : LocalFile) (hf : f ∈ files) :
    mapGet (buildNew opts env files m) (logicalName opts f.path) =
      some ⟨env.hashFn f.content, none⟩ := by
  induction files generalizing m with
  | nil => cases hf
  | cons g gs ih =>
    have hn' : logicalName opts g.path ∉ gs.map (fun f => logicalName opts f.path) ∧
        (gs.map (fun f => logicalName opts f.path)).Nodup := by
      rw [List.map_cons, List.nodup_cons] at hn
      exact hn
    rcases List.mem_cons.mp hf with rfl | hf'
    · rw [buildNew, mapGet_buildNew_ne]
      · exact mapGet_mapSet_self _ _ _
      · intro q hq hq'
        exact hn'.1 (hq' ▸ List.mem_map_of_mem _ hq)
    · exact ih _ hn'.2 hf'

/-! ## Characterization of the per-file loop and of the whole pass -/

theorem runFiles_char (opts : DeployOptions) (env : Env) (files : List LocalFile) :
    ∀ fps nfps acts,
      List.foldl (processFile opts env) ⟨fps, nfps, acts⟩ files =
        ⟨markAll opts files fps,
         buildNew opts env files nfps,
         acts ++ files.filterMap (fun f =>
           if (mapGet fps (logicalName opts f.path)).map (fun fp => fp.hash) =
               some (env.hashFn f.content)
           then none
           else some (uploadAction opts env f))⟩ := by
  induction files with
  | nil =>
    intro fps nfps acts
    simp [markAll, buildNew]
  | cons f fs ih =>
    intro fps nfps acts
    rw [List.foldl_cons]
    have hstep : processFile opts env ⟨fps, nfps, acts⟩ f =
        ⟨markOne fps (logicalName opts f.path),
         mapSet nfps (logicalName opts f.path) ⟨env.hashFn f.content, none⟩,
         acts ++ (if (mapGet fps (logicalName opts f.path)).map (fun fp => fp.hash) =
             some (env.hashFn f.content) then [] else [uploadAction opts env f])⟩ := by
      rw [processFile]
      simp only [mapGet_markOne_hash]
      split
      · simp
      · rfl
    rw [hstep, ih]
    simp only [markAll, buildNew, List.filterMap_cons, mapGet_markOne_hash]
    split
    · simp
    · simp

theorem writeBundle_eq (opts : DeployOptions) (env : Env) (files : List LocalFile)
    (loaded : FingerprintMap) :
    writeBundle opts env files loaded =
      (buildNew opts env files [],
       passUploads opts env loaded files
         ++ staleActions opts (markAll opts files loaded)
         ++ [manifestWrite (buildNew opts env files [])]) := by
  rw [writeBundle, runFiles, runFiles_char]
  rfl

/-! ## Stale-action and upload-trace lemmas -/

theorem targetKey_staleAction (opts : DeployOptions) (k : String) :
    targetKey (staleAction opts k) = k := by
  rw [staleAction]
  cases opts.deleteUseTag with
  | none => rfl
  | some kv => cases kv; rfl

theorem targetKey_uploadAction (opts : DeployOptions) (env : Env) (f : LocalFile) :
    targetKey (uploadAction opts env f) = logicalName opts f.path := by
  rw [uploadAction]
  split <;> rfl

theorem uploadAction_shape (opts : DeployOptions) (env : Env) (f : LocalFile) :
    ∃ b mt, uploadAction opts env f =
      Action.put (logicalName opts f.path) (PutBody.bytes b) mt := by
  rw [uploadAction]
  split
  · exact ⟨_, _, rfl⟩
  · exact ⟨_, _, rfl⟩

theorem mem_staleActions (opts : DeployOptions) (m : FingerprintMap) (a : Action)
    (ha : a ∈ staleActions opts m) :
    ∃ p ∈ m, p.2.procFlag ≠ some true ∧ a = staleAction opts p.1 := by
  rw [staleActions] at ha
  rcases List.mem_filterMap.mp ha with ⟨p, hp, hpa⟩
  by_cases h : p.2.procFlag = some true
  · simp [h] at hpa
  · simp only [h, if_false, Option.some.injEq] at hpa
    exact ⟨p, hp, h, hpa.symm⟩

theorem staleActions_eq_nil (opts : DeployOptions) (m : FingerprintMap)
    (h : ∀ p ∈ m, p.2.procFlag = some true) : staleActions opts m = [] := by
  rw [staleActions, List.filterMap_eq_nil_iff]
  intro p hp
  simp [h p hp]

theorem staleAction_ne_put (opts : DeployOptions) (k k' : String) (b : PutBody)
    (mt : PutObjectOptions) : staleAction opts k ≠ Action.put k' b mt := by
  rw [staleAction]
  cases opts.deleteUseTag with
  | none => simp
  | some kv => cases kv; simp

theorem mem_passUploads (opts : DeployOptions) (env : Env) (loaded : FingerprintMap)
    (files : List LocalFile) (a : Action)
    (ha : a ∈ passUploads opts env loaded files) :
    ∃ f ∈ files, a = uploadAction opts env f := by
  rw [passUploads] at ha
  rcases List.mem_filterMap.mp ha with ⟨f, hf, hfa⟩
  split at hfa
  · cases hfa
  · exact ⟨f, hf, (Option.some.injEq _ _ ▸ hfa).symm⟩

theorem filter_key_staleActions_nil (opts : DeployOptions) (m : FingerprintMap)
    (key : String) (hk : key ∉ keys m) :
    (staleActions opts m).filter (fun a => targetKey a = key) = [] := by
  rw [List.filter_eq_nil_iff]
  intro a ha
  rcases mem_staleActions _ _ _ ha with ⟨p, hp, _, rfl⟩
  rw [targetKey_staleAction]
  simp only [decide_eq_true_eq]
  intro h
  exact hk (h ▸ List.mem_map_of_mem _ hp)

theorem filter_key_staleActions_single (opts : DeployOptions) (m : FingerprintMap)
    (key : String) (fp : FileFingerprint) (hn : (keys m).Nodup)
    (hmem : (key, fp) ∈ m) (hfp : ¬ fp.procFlag = some true) :
    (staleActions opts m).filter (fun a => targetKey a = key) =
      [staleAction opts key] := by
  induction m with
  | nil => cases hmem
  | cons p rest ih =>
    have hn' : p.1 ∉ keys rest ∧ (keys rest).Nodup := by
      rw [keys, List.map_cons, List.nodup_cons] at hn
      exact hn
    rcases List.mem_cons.mp hmem with heq | hmem'
    · obtain rfl := heq.symm
      have hsa : staleActions opts ((key, fp) :: rest) =
          staleAction opts key :: staleActions opts rest := by
        simp [staleActions, List.filterMap_cons, hfp]
      rw [hsa, List.filter_cons]
      have hcond : decide (targetKey (staleAction opts key) = key) = true := by
        rw [targetKey_staleAction]
        simp
      rw [if_pos hcond, filter_key_staleActions_nil opts rest key hn'.1]
    · have hkey : key ∈ keys rest := List.mem_map_of_mem _ hmem'
      have hp1 : ¬ p.1 = key := fun he => hn'.1 (he ▸ hkey)
      by_cases hp2 : p.2.procFlag = some true
      · have hsa : staleActions opts (p :: rest) = staleActions opts rest := by
          simp [staleActions, List.filterMap_cons, hp2]
        rw [hsa]
        exact ih hn'.2 hmem'
      · have hsa : staleActions opts (p :: rest) =
            staleAction opts p.1 :: staleActions opts rest := by
          simp [staleActions, List.filterMap_cons, hp2]
        rw [hsa, List.filter_cons]
        have hcond : decide (targetKey (staleAction opts p.1) = key) = false := by
          rw [targetKey_staleAction]
          simp [hp1]
        rw [hcond]
        simp only [Bool.false_eq_true, if_false]
        exact ih hn'.2 hmem'

/-! ## Claim theorems -/

/-- C2: upload-iff-changed.  The trace of a pass is exactly: one upload per
local file whose logical name is absent from the loaded manifest or whose
recorded hash differs from the hash of its current bytes (files whose
recorded hash matches contribute no action at all — no upload and no
compression), followed by the stale-entry actions and the final manifest
write. -/
theorem upload_iff_changed (opts : DeployOptions) (env : Env)
    (files : List LocalFile) (loaded : FingerprintMap) :
    (writeBundle opts env files loaded).2 =
      files.filterMap (fun f =>
        if (mapGet loaded (logicalName opts f.path)).map (fun fp => fp.hash) =
            some (env.hashFn f.content)
        then none
        else some (uploadAction opts env f))
      ++ staleActions opts (markAll opts files loaded)
      ++ [manifestWrite (writeBundle opts env files loaded).1] := by
  rw [writeBundle_eq]
  rfl

/-- C3: manifest postcondition.  Every pass's trace contains the manifest
write — key `fingerprints.json`, JSON serialization of the new manifest,
content type `application/json`, private access — exactly once, as its
last action; the new manifest's entries each carry only a hash (the
processed marker is never set on them), that hash is the current hash of a
local file with that logical name, and every local file's logical name is
present in it. -/
theorem manifest_postcondition (opts : DeployOptions) (env : Env)
    (files : List LocalFile) (loaded : FingerprintMap) :
    ((writeBundle opts env files loaded).2.count
        (Action.put manifestKey
          (PutBody.str (stringifyMap (writeBundle opts env files loaded).1))
          ⟨some "application/json", none, none, some Acl.privateAcl⟩) = 1)
    ∧ ((writeBundle opts env files loaded).2.getLast? =
        some (Action.put manifestKey
          (PutBody.str (stringifyMap (writeBundle opts env files loaded).1))
          ⟨some "application/json", none, none, some Acl.privateAcl⟩))
    ∧ (∀ p ∈ (writeBundle opts env files loaded).1,
        p.2.procFlag = none ∧
        ∃ f ∈ files, logicalName opts f.path = p.1 ∧ p.2.hash = env.hashFn f.content)
    ∧ (∀ f ∈ files,
        (mapGet (writeBundle opts env files loaded).1 (logicalName opts f.path)).isSome) := by
  rw [writeBundle_eq]
  have hmeta : (⟨some "application/json", none, none, some Acl.privateAcl⟩ :
      PutObjectOptions) = manifestMeta := rfl
  rw [hmeta]
  refine ⟨?_, ?_, ?_, ?_⟩
  · show ((passUploads opts env loaded files
        ++ staleActions opts (markAll opts files loaded)
        ++ [manifestWrite (buildNew opts env files [])]).count
      (manifestWrite (buildNew opts env files []))) = 1
    rw [List.count_append, List.count_append]
    have h1 : (passUploads opts env loaded files).count
        (manifestWrite (buildNew opts env files [])) = 0 := by
      rw [List.count_eq_zero]
      intro hmem
      rcases mem_passUploads _ _ _ _ _ hmem with ⟨f, _, hfa⟩
      rcases uploadAction_shape opts env f with ⟨b, mt, hsh⟩
      rw [hsh] at hfa
      simp [manifestWrite] at hfa
    have h2 : (staleActions opts (markAll opts files loaded)).count
        (manifestWrite (buildNew opts env files [])) = 0 := by
      rw [List.count_eq_zero]
      intro hmem
      rcases mem_staleActions _ _ _ hmem with ⟨p, _, _, heq⟩
      exact staleAction_ne_put opts p.1 _ _ _ heq.symm
    rw [h1, h2]
    simp
  · show (passUploads opts env loaded files
        ++ staleActions opts (markAll opts files loaded)
        ++ [manifestWrite (buildNew opts env files [])]).getLast? =
      some (manifestWrite (buildNew opts env files []))
    exact List.getLast?_concat _
  · intro p hp
    rcases mem_buildNew _ _ _ _ _ hp with h | ⟨f, hf, rfl⟩
    · cases h
    · exact ⟨rfl, f, hf, rfl, rfl⟩
  · intro f hf
    exact mapGet_buildNew_name_isSome _ _ _ _ _ hf

/-- Witness for C3 at concrete inputs. -/
theorem manifest_postcondition_witness :
    (mapGet (writeBundle exOptsClean exEnvHead exFilesPair []).1
      (logicalName exOptsClean "app.js")).isSome :=
  (manifest_postcondition exOptsClean exEnvHead exFilesPair []).2.2.2
    ⟨"app.js", [1]⟩ (by decide)

/-- C1 counterexample: with `cleanHtmlSuffix` enabled, the two distinct
local files `a` and `a.html` collide on logical name `a`.  Running the
pass again on the identical file set, loading the manifest the first pass
wrote, still performs one asset upload (a bytes-put), refuting the
zero-uploads part of the claim. -/
theorem writeBundle_idempotent_counterexample :
    ((writeBundle exOptsClean exEnvHead exFilesCollide
        (writeBundle exOptsClean exEnvHead exFilesCollide []).1).2.countP
      (fun a => match a with
        | Action.put _ (PutBody.bytes _) _ => true
        | _ => false)) = 1 := by
  decide

/-- C1 (amended): provided no two local files map to the same logical name,
a second pass over the same files, loading the manifest written by the
first pass, performs zero asset uploads and zero delete/tag actions —
its whole trace is the single manifest write — and the manifest it writes
equals the first pass's manifest. -/
theorem writeBundle_idempotent (opts : DeployOptions) (env : Env)
    (files : List LocalFile) (loaded : FingerprintMap)
    (hnodup : (files.map (fun f => logicalName opts f.path)).Nodup) :
    (writeBundle opts env files (writeBundle opts env files loaded).1).1 =
      (writeBundle opts env files loaded).1
    ∧ (writeBundle opts env files (writeBundle opts env files loaded).1).2 =
      [manifestWrite (writeBundle opts env files loaded).1] := by
  have hnf : (writeBundle opts env files loaded).1 = buildNew opts env files [] := by
    rw [writeBundle_eq]
  rw [hnf, writeBundle_eq]
  refine ⟨rfl, ?_⟩
  have hup : passUploads opts env (buildNew opts env files []) files = [] := by
    rw [passUploads, List.filterMap_eq_nil_iff]
    intro f hf
    rw [mapGet_buildNew_nodup opts env files [] hnodup f hf]
    simp
  have hstale :
      staleActions opts (markAll opts files (buildNew opts env files [])) = [] := by
    apply staleActions_eq_nil
    intro p hp
    obtain ⟨k, fp⟩ := p
    have hkeys : keys (markAll opts files (buildNew opts env files [])) =
        keys (buildNew opts env files []) := keys_markAll _ _ _
    have hnodk : (keys (markAll opts files (buildNew opts env files []))).Nodup := by
      rw [hkeys]
      exact nodup_keys_buildNew _ _ _ _ List.nodup_nil
    have hget : mapGet (markAll opts files (buildNew opts env files [])) k = some fp :=
      (mem_iff_mapGet _ k fp hnodk).mp hp
    have hk : k ∈ keys (buildNew opts env files []) := by
      rw [← hkeys]
      exact (mapGet_isSome_iff _ _).mp (by rw [hget]; rfl)
    rcases mem_keys_buildNew _ _ _ _ _ hk with h | ⟨f, hf, hfk⟩
    · cases h
    · have hany : files.any (fun g => logicalName opts g.path == k) = true := by
        rw [List.any_eq_true]
        exact ⟨f, hf, by rw [hfk]; exact beq_self_eq_true k⟩
      rw [mapGet_markAll, hany, if_pos rfl] at hget
      cases hq : mapGet (buildNew opts env files []) k with
      | none => rw [hq] at hget; cases hget
      | some q =>
        rw [hq] at hget
        simp only [Option.map_some', Option.some.injEq] at hget
        rw [← hget]
        rfl
  rw [hup, hstale]
  rfl

/-- Witness for C1 on a collision-free file set. -/
theorem writeBundle_idempotent_witness :
    (writeBundle exOptsClean exEnvHead exFilesPair
        (writeBundle exOptsClean exEnvHead exFilesPair []).1).1 =
      (writeBundle exOptsClean exEnvHead exFilesPair []).1
    ∧ (writeBundle exOptsClean exEnvHead exFilesPair
        (writeBundle exOptsClean exEnvHead exFilesPair []).1).2 =
      [manifestWrite (writeBundle exOptsClean exEnvHead exFilesPair []).1] :=
  writeBundle_idempotent exOptsClean exEnvHead exFilesPair [] (by decide)

/-- C4 counterexample: a loaded manifest whose single stale entry is named
`fingerprints.json`, with an empty local file set, receives two remote
mutations on its key — the stale delete and then the final manifest write
— refuting the exactly-one-mutation part of the claim. -/
theorem stale_entry_counterexample :
    ((writeBundle {} exEnvHead [] exLoadedManifest).2.filter
      (fun a => targetKey a = "fingerprints.json")).length = 2 := by
  decide

/-- C4 (amended): for every entry of the loaded manifest (a well-formed
manifest: unique names, hash-only records) whose logical name matches no
local file of the pass and differs from the well-known manifest key,
exactly one remote mutation targets its key — a tag with the configured
delete-tag when one is set, a delete otherwise — and the name is absent
from the new manifest. -/
theorem stale_entry_once (opts : DeployOptions) (env : Env) (files : List LocalFile)
    (loaded : FingerprintMap) (key : String) (fp : FileFingerprint)
    (hnodup : (keys loaded).Nodup)
    (hclean : ∀ p ∈ loaded, p.2.procFlag = none)
    (hmem : (key, fp) ∈ loaded)
    (hstale : ∀ f ∈ files, logicalName opts f.path ≠ key)
    (hkey : key ≠ manifestKey) :
    ((writeBundle opts env files loaded).2.filter (fun a => targetKey a = key)) =
      [staleAction opts key]
    ∧ mapGet (writeBundle opts env files loaded).1 key = none := by
  rw [writeBundle_eq]
  constructor
  · show (passUploads opts env loaded files
        ++ staleActions opts (markAll opts files loaded)
        ++ [manifestWrite (buildNew opts env files [])]).filter
      (fun a => targetKey a = key) = [staleAction opts key]
    rw [List.filter_append, List.filter_append]
    have h1 : (passUploads opts env loaded files).filter
        (fun a => targetKey a = key) = [] := by
      rw [List.filter_eq_nil_iff]
      intro a ha
      rcases mem_passUploads _ _ _ _ _ ha with ⟨f, hf, rfl⟩
      rw [targetKey_uploadAction]
      simp only [decide_eq_true_eq]
      exact hstale f hf
    have h2 : (staleActions opts (markAll opts files loaded)).filter
        (fun a => targetKey a = key) = [staleAction opts key] := by
      apply filter_key_staleActions_single opts _ key fp
      · rw [keys_markAll]
        exact hnodup
      · have hnodk : (keys (markAll opts files loaded)).Nodup := by
          rw [keys_markAll]
          exact hnodup
        apply (mem_iff_mapGet _ key fp hnodk).mpr
        rw [mapGet_markAll]
        have hany : files.any (fun g => logicalName opts g.path == key) = false := by
          rw [List.any_eq_false]
          intro f hf
          simp only [beq_iff_eq]
          exact hstale f hf
        rw [hany]
        simp only [Bool.false_eq_true, if_false]
        exact (mem_iff_mapGet _ key fp hnodup).mp hmem
      · rw [hclean (key, fp) hmem]
        simp
    have h3 : ([manifestWrite (buildNew opts env files [])].filter
        (fun a => targetKey a = key)) = [] := by
      simp [manifestWrite, targetKey, Ne.symm hkey]
    rw [h1, h2, h3]
    rfl
  · show mapGet (buildNew opts env files []) key = none
    rw [mapGet_buildNew_ne _ _ _ _ _ hstale]
    rfl

/-- C10 counterexample: a local file literally named `fingerprints.json`
is enumerated and uploaded as a regular asset, so the pass performs two
writes to the manifest key, refuting the only-write part of the claim. -/
theorem manifest_never_asset_counterexample :
    ((writeBundle {} exEnvHead [⟨"fingerprints.json", [0]⟩] []).2.filter
      isManifestPut).length = 2 := by
  decide

/-- C10 (amended): the engine does not itself exclude the manifest name
from enumeration; provided no enumerated local file's logical name equals
`fingerprints.json`, the only write to the manifest key during a pass is
the single final manifest write, performed after and outside the per-file
loop (it is the trace's last action). -/
theorem manifest_never_asset (opts : DeployOptions) (env : Env)
    (files : List LocalFile) (loaded : FingerprintMap)
    (h : ∀ f ∈ files, logicalName opts f.path ≠ manifestKey) :
    ((writeBundle opts env files loaded).2.filter isManifestPut) =
      [manifestWrite (writeBundle opts env files loaded).1]
    ∧ (writeBundle opts env files loaded).2.getLast? =
        some (manifestWrite (writeBundle opts env files loaded).1) := by
  rw [writeBundle_eq]
  constructor
  · show (passUploads opts env loaded files
        ++ staleActions opts (markAll opts files loaded)
        ++ [manifestWrite (buildNew opts env files [])]).filter isManifestPut =
      [manifestWrite (buildNew opts env files [])]
    rw [List.filter_append, List.filter_append]
    have h1 : (passUploads opts env loaded files).filter isManifestPut = [] := by
      rw [List.filter_eq_nil_iff]
      intro a ha
      rcases mem_passUploads _ _ _ _ _ ha with ⟨f, hf, rfl⟩
      rcases uploadAction_shape opts env f with ⟨b, mt, hsh⟩
      rw [hsh, isManifestPut]
      simp only [beq_iff_eq]
      exact h f hf
    have h2 : (staleActions opts (markAll opts files loaded)).filter
        isManifestPut = [] := by
      rw [List.filter_eq_nil_iff]
      intro a ha
      rcases mem_staleActions _ _ _ ha with ⟨p, _, _, rfl⟩
      rw [staleAction]
      cases hd : opts.deleteUseTag with
      | none => simp [isManifestPut]
      | some kv => cases kv; simp [isManifestPut]
    have h3 : ([manifestWrite (buildNew opts env files [])].filter
        isManifestPut) = [manifestWrite (buildNew opts env files [])] := by
      simp [manifestWrite, isManifestPut]
    rw [h1, h2, h3]
    rfl
  · show (passUploads opts env loaded files
        ++ staleActions opts (markAll opts files loaded)
        ++ [manifestWrite (buildNew opts env files [])]).getLast? =
      some (manifestWrite (buildNew opts env files []))
    exact List.getLast?_concat _

/-- Witness for C10 on an ordinary file set. -/
theorem manifest_never_asset_witness :
    ((writeBundle exOptsClean exEnvHead exFilesPair []).2.filter isManifestPut) =
      [manifestWrite (writeBundle exOptsClean exEnvHead exFilesPair []).1]
    ∧ (writeBundle exOptsClean exEnvHead exFilesPair []).2.getLast? =
        some (manifestWrite (writeBundle exOptsClean exEnvHead exFilesPair []).1) :=
  manifest_never_asset exOptsClean exEnvHead exFilesPair [] (by decide)

/-- C5: `Client.get` maps exactly the `NoSuchKey` and `AccessDenied`
failures of the underlying fetch to an absent result, propagating any
other failure; `Client.getJson` propagates absence unchanged and fails
with a parse error on malformed bytes; the engine's manifest load turns
only absence into the empty mapping — a malformed manifest is a fatal
parse error, never an empty manifest. -/
theorem fetch_absence_semantics (parse : Bytes → Option FingerprintMap)
    (out : GetOutcome) :
    (clientGet out = .ok none ↔
      ∃ e, out = .err e ∧ (e.name = "NoSuchKey" ∨ e.name = "AccessDenied"))
    ∧ (∀ e, out = .err e → e.name ≠ "NoSuchKey" → e.name ≠ "AccessDenied" →
        clientGet out = .error e)
    ∧ (clientGetJson parse out = .ok none ↔ clientGet out = .ok none)
    ∧ (∀ b, out = .ok b → parse b = none →
        clientGetJson parse out = .error .parseError
        ∧ loadFingerprints parse out = .error .parseError)
    ∧ (∀ b m, out = .ok b → parse b = some m → loadFingerprints parse out = .ok m)
    ∧ (clientGet out = .ok none → loadFingerprints parse out = .ok []) := by
  refine ⟨?_, ?_, ?_, ?_, ?_, ?_⟩
  · constructor
    · intro hg
      cases out with
      | ok b => simp [clientGet] at hg
      | err e =>
        refine ⟨e, rfl, ?_⟩
        by_cases h1 : e.name = "NoSuchKey"
        · exact Or.inl h1
        · by_cases h2 : e.name = "AccessDenied"
          · exact Or.inr h2
          · simp [clientGet, h1, h2] at hg
    · rintro ⟨e, rfl, hname⟩
      rcases hname with h1 | h1 <;> simp [clientGet, h1]
  · intro e he h1 h2
    subst he
    simp [clientGet, h1, h2]
  · cases out with
    | ok b =>
      cases hp : parse b with
      | none => simp [clientGetJson, clientGet, hp]
      | some t => simp [clientGetJson, clientGet, hp]
    | err e =>
      by_cases h1 : e.name = "NoSuchKey"
      · simp [clientGetJson, clientGet, h1]
      · by_cases h2 : e.name = "AccessDenied"
        · simp [clientGetJson, clientGet, h1, h2]
        · simp [clientGetJson, clientGet, h1, h2]
  · intro b hb hp
    subst hb
    exact ⟨by simp [clientGetJson, clientGet, hp],
           by simp [loadFingerprints, clientGetJson, clientGet, hp, Except.map]⟩
  · intro b m hb hp
    subst hb
    simp [loadFingerprints, clientGetJson, clientGet, hp, Except.map]
  · intro h
    simp [loadFingerprints, clientGetJson, h, Except.map]

/-- Witness for C5: a `NoSuchKey` failure is absence and loads the empty
manifest; malformed bytes are a fatal parse error. -/
theorem fetch_absence_semantics_witness :
    clientGet (GetOutcome.err ⟨"NoSuchKey"⟩) = .ok none
    ∧ loadFingerprints (fun _ => none) (GetOutcome.err ⟨"NoSuchKey"⟩) = .ok []
    ∧ loadFingerprints (fun _ => none) (GetOutcome.ok [0]) = .error .parseError := by
  have h := fetch_absence_semantics (fun _ => none) (GetOutcome.err ⟨"NoSuchKey"⟩)
  have h1 : clientGet (GetOutcome.err ⟨"NoSuchKey"⟩) = .ok none :=
    h.1.mpr ⟨⟨"NoSuchKey"⟩, rfl, Or.inl rfl⟩
  exact ⟨h1, h.2.2.2.2.2 h1,
    ((fetch_absence_semantics (fun _ => none) (GetOutcome.ok [0])).2.2.2.1
      [0] rfl rfl).2⟩

/-- C6: `Client.del` succeeds on an already-absent object (the service's
delete is a no-op success there), `Client.tag` swallows `NoSuchKey` and
succeeds on an absent object, and every stale-phase delete/tag action
executes successfully against any bucket state — a not-found condition
never aborts the pass. -/
theorem notfound_never_fatal (store : Store) (key : String) (opts : DeployOptions)
    (m : FingerprintMap) :
    ((∀ p ∈ store, p.1 ≠ key) → clientDel store key = .ok store)
    ∧ (∃ s, clientDel store key = .ok s)
    ∧ ((∀ p ∈ store, p.1 ≠ key) → clientTag store key = .ok store)
    ∧ (∀ a ∈ staleActions opts m, ∀ st : Store, ∃ s, execAction st a = .ok s) := by
  refine ⟨?_, ⟨_, rfl⟩, ?_, ?_⟩
  · intro h
    rw [clientDel, s3DeleteObject]
    congr 1
    rw [List.filter_eq_self]
    intro p hp
    simp [h p hp]
  · intro h
    have hany : store.any (fun p => p.1 == key) = false := by
      rw [List.any_eq_false]
      intro p hp
      simp only [beq_iff_eq]
      exact h p hp
    unfold clientTag s3PutObjectTagging
    rw [hany]
    simp
  · intro a ha st
    rcases mem_staleActions _ _ _ ha with ⟨p, _, _, rfl⟩
    rw [staleAction]
    cases hd : opts.deleteUseTag with
    | none => exact ⟨_, rfl⟩
    | some kv =>
      cases kv
      show ∃ s, clientTag st p.1 = .ok s
      unfold clientTag s3PutObjectTagging
      by_cases hb : st.any (fun q => q.1 == p.1) = true
      · rw [if_pos hb]
        exact ⟨st, rfl⟩
      · rw [if_neg hb]
        exact ⟨st, rfl⟩

/-- Witness for C6: deleting and tagging a key absent from the store both
succeed. -/
theorem notfound_never_fatal_witness :
    clientDel [("a", [1])] "b" = .ok [("a", [1])]
    ∧ clientTag [("a", [1])] "b" = .ok [("a", [1])] :=
  ⟨(notfound_never_fatal [("a", [1])] "b" {} []).1 (by decide),
   (notfound_never_fatal [("a", [1])] "b" {} []).2.2.1 (by decide)⟩

/-- Witness for C4: a stale `old.js` entry with local set `[new.js]` and no
delete-tag is deleted exactly once and dropped from the manifest. -/
theorem stale_entry_once_witness :
    ((writeBundle {} exEnvHead [⟨"new.js", [1]⟩] [("old.js", ⟨"X", none⟩)]).2.filter
      (fun a => targetKey a = "old.js")) = [staleAction {} "old.js"]
    ∧ mapGet (writeBundle {} exEnvHead [⟨"new.js", [1]⟩]
        [("old.js", ⟨"X", none⟩)]).1 "old.js" = none :=
  stale_entry_once {} exEnvHead [⟨"new.js", [1]⟩] [("old.js", ⟨"X", none⟩)]
    "old.js" ⟨"X", none⟩ (by decide) (by decide) (by decide) (by decide) (by decide)

/-- C7 counterexample: with a configured path option ending in a slash,
`normalizeKey` yields two separating slashes, refuting never-two. -/
theorem normalizeKey_counterexample :
    normalizeKey "assets/" "main.js" = "assets//main.js"
    ∧ ¬ joinedByOneSlash "assets/" "main.js" (normalizeKey "assets/" "main.js") := by
  constructor
  · decide
  · intro hj
    rw [joinedByOneSlash] at hj
    exact absurd hj (by decide)

/-- C7 (amended): `normalizeKey` inserts a separating slash exactly when
the key lacks a leading one; whenever the configured path option has no
trailing slash and the key no leading one, the result is the two joined by
exactly one separating slash. -/
theorem normalizeKey_one_slash (pfx key : String)
    (h1 : dropTrailingSlashes pfx = pfx)
    (h2 : dropLeadingSlashes key = key)
    (h3 : strStartsWith key "/" = false) :
    normalizeKey pfx key = pfx ++ "/" ++ key
    ∧ joinedByOneSlash pfx key (normalizeKey pfx key) := by
  have he : normalizeKey pfx key = pfx ++ "/" ++ key := by
    unfold normalizeKey
    rw [h3]
    simp only [Bool.false_eq_true, if_false]
    rw [String.append_assoc]
  refine ⟨he, ?_⟩
  rw [joinedByOneSlash, he, h1, h2]

/-- Witness for C7 on a slash-free configuration. -/
theorem normalizeKey_one_slash_witness :
    normalizeKey "assets" "main.js" = "assets" ++ "/" ++ "main.js"
    ∧ joinedByOneSlash "assets" "main.js" (normalizeKey "assets" "main.js") :=
  normalizeKey_one_slash "assets" "main.js" (by decide) (by decide) (by decide)

/-- C8: every asset upload of a pass (every bytes-put in the trace) is the
put built by `uploadAction`, and that put carries: content type from MIME
lookup of the physical file's extension with the `application/octet-stream`
fallback, public-read access; for a non-HTML file the immutable
cache-control directive and, exactly when gzip is enabled, the
gzip-compressed body with content-encoding gzip; for an HTML file the raw
body with no content-encoding, whatever the gzip option. -/
theorem upload_metadata (opts : DeployOptions) (env : Env) (files : List LocalFile)
    (loaded : FingerprintMap) :
    (∀ a ∈ (writeBundle opts env files loaded).2, ∀ k b mt,
        a = Action.put k (PutBody.bytes b) mt →
        ∃ f ∈ files, a = uploadAction opts env f)
    ∧ (∀ f : LocalFile, ∃ b mt,
        uploadAction opts env f =
          Action.put (logicalName opts f.path) (PutBody.bytes b) mt
        ∧ mt.contentType =
            some ((env.mimeLookup (extname f.path)).getD "application/octet-stream")
        ∧ mt.acl = some Acl.publicRead
        ∧ (strEndsWith f.path ".html" = false →
            mt.cacheControl = some "public, max-age=31536000, immutable"
            ∧ (opts.gzipEnabled = true →
                b = env.gzipFn f.content ∧ mt.contentEncoding = some "gzip")
            ∧ (opts.gzipEnabled = false →
                b = f.content ∧ mt.contentEncoding = none))
        ∧ (strEndsWith f.path ".html" = true →
            b = f.content ∧ mt.contentEncoding = none ∧ mt.cacheControl = none)) := by
  constructor
  · intro a ha k b mt hput
    rw [writeBundle_eq] at ha
    rcases List.mem_append.mp ha with ha' | hman
    · rcases List.mem_append.mp ha' with hup | hstale
      · exact mem_passUploads _ _ _ _ _ hup
      · rcases mem_staleActions _ _ _ hstale with ⟨p, _, _, rfl⟩
        exact absurd hput (staleAction_ne_put opts p.1 _ _ _)
    · rw [List.mem_singleton.mp hman] at hput
      simp [manifestWrite] at hput
  · intro f
    by_cases hh : strEndsWith f.path ".html" = true
    · refine ⟨f.content, getFileMeta env f.path, ?_, rfl, rfl, ?_, ?_⟩
      · simp [uploadAction, hh]
      · intro habs
        rw [hh] at habs
        cases habs
      · intro _
        refine ⟨rfl, rfl, ?_⟩
        simp [getFileMeta, hh]
    · have hh' : strEndsWith f.path ".html" = false := by
        cases hv : strEndsWith f.path ".html"
        · rfl
        · exact absurd hv hh
      by_cases hg : opts.gzipEnabled = true
      · refine ⟨env.gzipFn f.content,
          { getFileMeta env f.path with contentEncoding := some "gzip" },
          ?_, rfl, rfl, ?_, ?_⟩
        · simp [uploadAction, hh', hg]
        · intro _
          refine ⟨?_, fun _ => ⟨rfl, rfl⟩, fun habs => ?_⟩
          · simp [getFileMeta, hh']
          · rw [hg] at habs
            cases habs
        · intro habs
          rw [hh'] at habs
          cases habs
      · have hg' : opts.gzipEnabled = false := by
          cases hv : opts.gzipEnabled
          · rfl
          · exact absurd hv hg
        refine ⟨f.content, getFileMeta env f.path, ?_, rfl, rfl, ?_, ?_⟩
        · simp [uploadAction, hh', hg']
        · intro _
          refine ⟨?_, fun habs => ?_, fun _ => ⟨rfl, rfl⟩⟩
          · simp [getFileMeta, hh']
          · rw [hg'] at habs
            cases habs
        · intro habs
          rw [hh'] at habs
          cases habs

/-- Witness for C8 at a non-HTML file with gzip enabled. -/
theorem upload_metadata_witness :
    ∃ b mt,
      uploadAction exOptsGzip exEnvHead ⟨"app.js", [1]⟩ =
        Action.put (logicalName exOptsGzip "app.js") (PutBody.bytes b) mt
      ∧ mt.contentType =
          some ((exEnvHead.mimeLookup (extname "app.js")).getD
            "application/octet-stream")
      ∧ mt.acl = some Acl.publicRead
      ∧ (strEndsWith "app.js" ".html" = false →
          mt.cacheControl = some "public, max-age=31536000, immutable"
          ∧ (exOptsGzip.gzipEnabled = true →
              b = exEnvHead.gzipFn [1] ∧ mt.contentEncoding = some "gzip")
          ∧ (exOptsGzip.gzipEnabled = false →
              b = [1] ∧ mt.contentEncoding = none))
      ∧ (strEndsWith "app.js" ".html" = true →
          b = [1] ∧ mt.contentEncoding = none ∧ mt.cacheControl = none) :=
  (upload_metadata exOptsGzip exEnvHead [] []).2 ⟨"app.js", [1]⟩

/-- C9: with `cleanHtmlSuffix` enabled, a (nonempty) path's logical name
equals the path with its trailing five characters removed exactly when the
path ends in `.html`; a name not ending in `.html` is never altered, and no
stripping happens when the option is disabled; the upload's content type is
still derived from the physical path's original extension, not from the
stripped name. -/
theorem suffix_stripping (opts : DeployOptions) (env : Env) (p : String) (c : Bytes)
    (hp : p ≠ "") :
    (opts.cleanHtmlSuffix = true →
      (logicalName opts p = jsSlice5 p ↔ strEndsWith p ".html" = true))
    ∧ (strEndsWith p ".html" = false → logicalName opts p = p)
    ∧ (opts.cleanHtmlSuffix = false → logicalName opts p = p)
    ∧ ((getFileMeta env p).contentType =
        some ((env.mimeLookup (extname p)).getD "application/octet-stream"))
    ∧ (∃ b mt, uploadAction opts env ⟨p, c⟩ =
        Action.put (logicalName opts p) (PutBody.bytes b) mt
        ∧ mt.contentType =
          some ((env.mimeLookup (extname p)).getD "application/octet-stream")) := by
  have hne : p.toList ≠ [] := by
    intro h0
    obtain ⟨data⟩ := p
    have : data = [] := h0
    subst this
    exact hp rfl
  have hslice : jsSlice5 p ≠ p := by
    intro he
    have h1 : (jsSlice5 p).toList = p.toList.take (p.toList.length - 5) := rfl
    have hlen : (p.toList.take (p.toList.length - 5)).length = p.toList.length := by
      rw [← h1, he]
    rw [List.length_take, Nat.min_eq_left (Nat.sub_le _ _)] at hlen
    have hpos : 0 < p.toList.length := List.length_pos.mpr hne
    omega
  refine ⟨?_, ?_, ?_, rfl, ?_⟩
  · intro hc
    constructor
    · intro heq
      by_contra hend
      have hend' : strEndsWith p ".html" = false := by
        cases hv : strEndsWith p ".html"
        · rfl
        · exact absurd hv hend
      rw [logicalName, hc, hend'] at heq
      simp only [Bool.true_and, Bool.false_eq_true, if_false] at heq
      exact hslice heq.symm
    · intro hend
      rw [logicalName, hc, hend]
      simp
  · intro hend
    simp [logicalName, hend]
  · intro hc
    simp [logicalName, hc]
  · by_cases hcond : (!(strEndsWith p ".html") && opts.gzipEnabled) = true
    · refine ⟨env.gzipFn c,
        { getFileMeta env p with contentEncoding := some "gzip" }, ?_, rfl⟩
      simp [uploadAction, hcond]
    · refine ⟨c, getFileMeta env p, ?_, rfl⟩
      have hcond' : (!(strEndsWith p ".html") && opts.gzipEnabled) = false := by
        cases hv : (!(strEndsWith p ".html") && opts.gzipEnabled)
        · rfl
        · exact absurd hv hcond
      simp [uploadAction, hcond']

/-- Witness for C9 at `about.html` with `cleanHtmlSuffix` enabled. -/
theorem suffix_stripping_witness :
    logicalName exOptsClean "about.html" = jsSlice5 "about.html"
    ∧ jsSlice5 "about.html" = "about"
    ∧ (getFileMeta exEnvHead "about.html").contentType = some "text/html" := by
  have h := suffix_stripping exOptsClean exEnvHead "about.html" [] (by decide)
  refine ⟨(h.1 rfl).mpr (by decide), by decide, ?_⟩
  rw [h.2.2.2.1]
  decide

end DeployS3
